import Mathlib

/-!
Shallow embedding of `src/operation.js` of the pinkyo/Validator repository:
a field-validation registry with registration, group membership, validation
execution, a result cache and listener dispatch.

Modelling conventions:
* JS objects used as string-keyed maps become association lists
  (`List (String × _)`); JS assignment keeps the position of an existing key
  and appends fresh keys, which `mset` reproduces; `delete` is `merase`.
* A zero-argument, possibly stateful JS getter becomes a function
  `Nat → V` from its invocation index to the produced value, together with a
  per-field invocation counter stored in the field record.
* Validation-chain functions, listeners and callbacks are opaque; every
  externally observable action of an operation (diagnostic warning, getter
  call, chain call, cache write, listener notification, callback call) is
  recorded in an ordered event trace, so ordering facts are provable.
* The paths of the source that throw (`subscribe` destructuring an absent
  record, `updateGroups` iterating a null group list) are modelled with
  `Except`; the state reached before the throw is returned alongside.
* The misspelling `groupStroage` of the source is kept.
-/

namespace Operation

/-- Lookup in a JS-object-like association list (first matching key). -/
def mget {α : Type _} : List (String × α) → String → Option α
  | [], _ => none
  | p :: m, k => if p.1 = k then some p.2 else mget m k

/-- JS-object assignment: replace the value of an existing key in place,
append a fresh key at the end. -/
def mset {α : Type _} : List (String × α) → String → α → List (String × α)
  | [], k, v => [(k, v)]
  | p :: m, k, v => if p.1 = k then (k, v) :: m else p :: mset m k v

/-- JS `delete` of a key. -/
def merase {α : Type _} : List (String × α) → String → List (String × α)
  | [], _ => []
  | p :: m, k => if p.1 = k then m else p :: merase m k

/-- The argument object passed to every validation-chain function. -/
structure NV (V : Type _) where
  name : String
  value : V

/-- A stored field record: `validationStorage[id] = {name, validationChain, getter}`,
with the `listeners` property attached later by `subscribe` (absent is modelled
as the empty list) and the getter statefulness made explicit by a counter. -/
structure FieldRec (V R Λ : Type _) where
  name : Option String
  validationChain : Option (List (NV V → R))
  getter : Nat → V
  getterCount : Nat
  listeners : List Λ

/-- The validator inner object: the three co-located maps. -/
structure Validator (V R Λ : Type _) where
  validationStorage : List (String × FieldRec V R Λ)
  groupStroage : List (String × List (String × Bool))
  resultCache : List (String × Option (List R))

/-- The registry before any operation. -/
def emptyValidator (V R Λ : Type _) : Validator V R Λ := ⟨[], [], []⟩

/-- The `field` argument of `register`: id, getter, optional name and groups. -/
structure FieldInput (V : Type _) where
  id : String
  getter : Nat → V
  name : Option String
  groups : Option (List String)

/-- Externally observable actions, in execution order. -/
inductive Event (V R Λ : Type _) where
  | warn (msg : String)
  | getterCall (value : V)
  | chainCall (name : String) (value : V) (result : R)
  | cacheWrite (id : String) (results : List R)
  | notify (listener : Λ) (results : List R)
  | callbackCall

/-- The TypeError-like failures the modelled paths can raise. -/
inductive JsError where
  | typeError (msg : String)
deriving DecidableEq

def notRegisteredMsg (id : String) : String :=
  "id " ++ id ++ " has not been registered"

def alreadyRegisteredMsg (id : String) : String :=
  "id " ++ id ++ " has been registered"

def notInGroupMsg (id g : String) : String :=
  "id " ++ id ++ " is not in group " ++ g

/-- Model of `getDisplayName(name, id)`: the id when the name is nil. -/
def getDisplayName (name : Option String) (id : String) : String :=
  name.getD id

/-- The loop body of `validateOne` over the validation chain: each step calls
the getter once (advancing its invocation counter), applies the chain function
to `{name, value}` and pushes the result.  Returns the collected results, the
final getter counter and the trace of getter and chain calls. -/
def runChain {V R Λ : Type _} (dn : String) (g : Nat → V) :
    List (NV V → R) → Nat → List R × Nat × List (Event V R Λ)
  | [], k => ([], k, [])
  | f :: fs, k =>
      let v := g k
      let r := f ⟨dn, v⟩
      let rest := runChain dn g fs (k + 1)
      (r :: rest.1, rest.2.1, .getterCall v :: .chainCall dn v r :: rest.2.2)

/-- Model of `validateOne(validator, id, callback)`.  Warns and returns undefined when
the id is unregistered; otherwise runs the chain, overwrites the result cache
entry, notifies the listeners in order and finally calls the callback. -/
def validateOne {V R Λ : Type _} (v : Validator V R Λ) (id : String) (cb : Bool) :
    Validator V R Λ × Option (List R) × List (Event V R Λ) :=
  match mget v.validationStorage id with
  | none => (v, none, [.warn (notRegisteredMsg id)])
  | some fld =>
      let dn := getDisplayName fld.name id
      let out := runChain dn fld.getter (fld.validationChain.getD []) fld.getterCount
      ({ validationStorage :=
           mset v.validationStorage id { fld with getterCount := out.2.1 },
         groupStroage := v.groupStroage,
         resultCache := mset v.resultCache id (some out.1) },
       some out.1,
       out.2.2 ++ [.cacheWrite id out.1]
         ++ fld.listeners.map (fun l => .notify l out.1)
         ++ if cb then [.callbackCall] else [])

/-- The group-marking loop shared by `register` and `updateGroups`: for each
listed group name, create the group map when absent and set the membership
flag of `id` to `true`. -/
def addIdToGroups (gs : List (String × List (String × Bool))) (id : String)
    (names : List String) : List (String × List (String × Bool)) :=
  names.foldl (fun acc g => mset acc g (mset ((mget acc g).getD []) id true)) gs

/-- Model of `register(validator, field, validationChain, callback)`.  A second
registration of the same id warns and returns undefined without touching the
state; a first registration stores the record, marks the listed groups and
returns true. -/
def register {V R Λ : Type _} (v : Validator V R Λ) (f : FieldInput V)
    (validationChain : Option (List (NV V → R))) (cb : Bool) :
    Validator V R Λ × Option Bool × List (Event V R Λ) :=
  match mget v.validationStorage f.id with
  | some _ => (v, none, [.warn (alreadyRegisteredMsg f.id)])
  | none =>
      ({ validationStorage :=
           mset v.validationStorage f.id
             ⟨f.name, validationChain, f.getter, 0, []⟩,
         groupStroage :=
           match f.groups with
           | none => v.groupStroage
           | some names => addIdToGroups v.groupStroage f.id names,
         resultCache := v.resultCache },
       some true,
       if cb then [.callbackCall] else [])

/-- The `getIdsFromGroups` set accumulation: insertion-ordered, duplicate-free
collection of the ids whose flag is true in the iterated group map. -/
def addGroupIds (acc : List String) (m : List (String × Bool)) : List String :=
  m.foldl (fun a q => if q.2 && !(a.contains q.1) then a ++ [q.1] else a) acc

/-- Model of `getIdsFromGroups(validator, groups)`: all registered ids when `groups` is
nil, otherwise the union of the true-flagged ids of the named groups. -/
def getIdsFromGroups {V R Λ : Type _} (v : Validator V R Λ) :
    Option (List String) → List String
  | none => v.validationStorage.map Prod.fst
  | some gs => gs.foldl (fun acc g => addGroupIds acc ((mget v.groupStroage g).getD [])) []

/-- One iteration of the loop of `validate`: validate the id with a nil
callback, record the result in the result map, extend the trace. -/
def validateStep {V R Λ : Type _}
    (acc : Validator V R Λ × List (String × Option (List R)) × List (Event V R Λ))
    (id : String) :
    Validator V R Λ × List (String × Option (List R)) × List (Event V R Λ) :=
  let out := validateOne acc.1 id false
  (out.1, mset acc.2.1 id out.2.1, acc.2.2 ++ out.2.2)

/-- Model of `validate(validator, groups, callback)`: resolves the id set, validates
each id with a nil per-id callback, collects a result map, then calls the
callback. -/
def validate {V R Λ : Type _} (v : Validator V R Λ) (groups : Option (List String))
    (cb : Bool) :
    Validator V R Λ × List (String × Option (List R)) × List (Event V R Λ) :=
  let folded := (getIdsFromGroups v groups).foldl validateStep (v, [], [])
  (folded.1, folded.2.1, folded.2.2 ++ if cb then [.callbackCall] else [])

/-- The value `subscribe` returns on its non-throwing paths: the literal
`true` of the nil-listener shortcut, or the unsubscribe closure (represented
by the id and listener it captures). -/
inductive SubscribeRet (Λ : Type _) where
  | retTrue
  | retUnsub (id : String) (listener : Λ)

/-- Model of `subscribe(validator, id, listener, callback)`.  A nil listener returns
`true` at once.  For an unregistered id the source warns and then destructures
the absent record, raising a TypeError; otherwise the listener is appended and
the unsubscribe closure returned. -/
def subscribe {V R Λ : Type _} (v : Validator V R Λ) (id : String) (l : Option Λ)
    (cb : Bool) :
    Validator V R Λ × Except JsError (SubscribeRet Λ) × List (Event V R Λ) :=
  match l with
  | none => (v, .ok .retTrue, [])
  | some l =>
      match mget v.validationStorage id with
      | none =>
          (v, .error (.typeError "cannot destructure listeners of undefined"),
           [.warn (notRegisteredMsg id)])
      | some fld =>
          let vs := mset v.validationStorage id { fld with listeners := fld.listeners ++ [l] }
          ({ v with validationStorage := vs },
           .ok (.retUnsub id l),
           if cb then [.callbackCall] else [])

/-- JS `Array.prototype.indexOf`: index of the first occurrence, `-1` when
absent. -/
def jsIndexOf {α : Type _} [DecidableEq α] (a : α) : List α → Int
  | [] => -1
  | x :: xs =>
      if x = a then 0
      else
        let r := jsIndexOf a xs
        if r < 0 then -1 else r + 1

/-- JS `Array.prototype.splice(start, 1)`: a negative start counts from the
end (clamped at 0), and at most one element at the resulting position is
removed. -/
def jsSplice1 {α : Type _} (xs : List α) (start : Int) : List α :=
  let len : Int := xs.length
  let s := (if start < 0 then max (len + start) 0 else min start len).toNat
  xs.take s ++ xs.drop (s + 1)

/-- The body of the closure returned by `subscribe`:
`listeners.splice(listeners.indexOf(listener), 1)`. -/
def unsubList {Λ : Type _} [DecidableEq Λ] (ls : List Λ) (l : Λ) : List Λ :=
  jsSplice1 ls (jsIndexOf l ls)

/-- Invoking the unsubscribe closure of `subscribe`, modelled on the field's
current listener list (in the source the closure mutates the captured array,
which is the record's array unless `clearListeners` replaced it in between). -/
def unsubscribeOp {V R Λ : Type _} [DecidableEq Λ] (v : Validator V R Λ)
    (id : String) (l : Λ) : Validator V R Λ :=
  match mget v.validationStorage id with
  | none => v
  | some fld =>
      let vs := mset v.validationStorage id { fld with listeners := unsubList fld.listeners l }
      { v with validationStorage := vs }

/-- Model of `clearListeners(validator, id, callback)`: warns and no-ops on an
unregistered id, otherwise resets the listener list. -/
def clearListeners {V R Λ : Type _} (v : Validator V R Λ) (id : String) (cb : Bool) :
    Validator V R Λ × List (Event V R Λ) :=
  match mget v.validationStorage id with
  | none => (v, [.warn (notRegisteredMsg id)])
  | some fld =>
      let vs := mset v.validationStorage id { fld with listeners := [] }
      ({ v with validationStorage := vs },
       if cb then [.callbackCall] else [])

/-- Model of `updateGroups(validator, id, groups, callback)`: warns (only) when the id
is unregistered, sets the flag of `id` to false in every existing group, then
iterates `groups` setting it true.  When `groups` is nil the checks pass
(`checkGroups` allows nil) but `groups.forEach` raises a TypeError, after the
clearing loop has already mutated the state. -/
def updateGroups {V R Λ : Type _} (v : Validator V R Λ) (id : String)
    (groups : Option (List String)) (cb : Bool) :
    Validator V R Λ × Except JsError Bool × List (Event V R Λ) :=
  let warnEvs : List (Event V R Λ) :=
    if (mget v.validationStorage id).isNone then [.warn (notRegisteredMsg id)] else []
  let cleared := v.groupStroage.map fun p => (p.1, mset p.2 id false)
  match groups with
  | none =>
      ({ v with groupStroage := cleared },
       .error (.typeError "cannot read forEach of null"), warnEvs)
  | some names =>
      ({ v with groupStroage := addIdToGroups cleared id names },
       .ok true, warnEvs ++ if cb then [.callbackCall] else [])

/-- Model of `addGroup(validator, id, group, callback)`: warns when the id is
unregistered but still sets the membership flag to true, creating the group
map when absent. -/
def addGroup {V R Λ : Type _} (v : Validator V R Λ) (id g : String) (cb : Bool) :
    Validator V R Λ × Bool × List (Event V R Λ) :=
  let warnEvs : List (Event V R Λ) :=
    if (mget v.validationStorage id).isNone then [.warn (notRegisteredMsg id)] else []
  let gs := mset v.groupStroage g (mset ((mget v.groupStroage g).getD []) id true)
  ({ v with groupStroage := gs },
   true, warnEvs ++ if cb then [.callbackCall] else [])

/-- Model of `removeGroup(validator, id, group, callback)`: no-op (with a warning) when
the id is unregistered or the group absent; otherwise sets the flag to false. -/
def removeGroup {V R Λ : Type _} (v : Validator V R Λ) (id g : String) (cb : Bool) :
    Validator V R Λ × List (Event V R Λ) :=
  match mget v.validationStorage id with
  | none => (v, [.warn (notRegisteredMsg id)])
  | some _ =>
      let warnEvs : List (Event V R Λ) :=
        match mget v.groupStroage g with
        | none => [.warn (notInGroupMsg id g)]
        | some gi => if (mget gi id).getD false then [] else [.warn (notInGroupMsg id g)]
      match mget v.groupStroage g with
      | none => (v, warnEvs)
      | some gi =>
          ({ v with groupStroage := mset v.groupStroage g (mset gi id false) },
           warnEvs ++ if cb then [.callbackCall] else [])

/-- Model of `deregister(validator, id, callback)`: warns and no-ops when unregistered;
otherwise deletes the record and sets the cache entry to undefined, leaving
group membership flags untouched. -/
def deregister {V R Λ : Type _} (v : Validator V R Λ) (id : String) (cb : Bool) :
    Validator V R Λ × List (Event V R Λ) :=
  match mget v.validationStorage id with
  | none => (v, [.warn (notRegisteredMsg id)])
  | some _ =>
      ({ validationStorage := merase v.validationStorage id,
         groupStroage := v.groupStroage,
         resultCache := mset v.resultCache id none },
       if cb then [.callbackCall] else [])

/-- Model of `getOneResult(validator, id)` at the registry level: the cached sequence
(undefined both for a missing key and an undefined entry), with the
unregistered warning.  The clone of the returned array is modelled separately
at the heap level below. -/
def getOneResult {V R Λ : Type _} (v : Validator V R Λ) (id : String) :
    Option (List R) × List (Event V R Λ) :=
  ((mget v.resultCache id).join,
   if (mget v.validationStorage id).isNone then [.warn (notRegisteredMsg id)] else [])

/-- Model of `getResults(validator, groups)`: one `getOneResult` per resolved id. -/
def getResults {V R Λ : Type _} (v : Validator V R Λ) (groups : Option (List String)) :
    List (String × Option (List R)) × List (Event V R Λ) :=
  (getIdsFromGroups v groups).foldl
    (fun acc id =>
      let out := getOneResult v id
      (mset acc.1 id out.1, acc.2 ++ out.2))
    ([], [])

/-- Model of `clearOneResult(validator, id)`: sets the cache entry to undefined. -/
def clearOneResult {V R Λ : Type _} (v : Validator V R Λ) (id : String) :
    Validator V R Λ × List (Event V R Λ) :=
  ({ v with resultCache := mset v.resultCache id none },
   if (mget v.validationStorage id).isNone then [.warn (notRegisteredMsg id)] else [])

/-- One iteration of the loop of `clearResults`. -/
def clearResultsStep {V R Λ : Type _} (acc : Validator V R Λ × List (Event V R Λ))
    (id : String) : Validator V R Λ × List (Event V R Λ) :=
  let out := clearOneResult acc.1 id
  (out.1, acc.2 ++ out.2)

/-- Model of `clearResults(validator, groups)`: one `clearOneResult` per resolved id. -/
def clearResults {V R Λ : Type _} (v : Validator V R Λ) (groups : Option (List String)) :
    Validator V R Λ × List (Event V R Λ) :=
  (getIdsFromGroups v groups).foldl clearResultsStep (v, [])

/-- One invocation of a public operation with well-typed arguments, including
an invocation of a previously returned unsubscribe closure.  The printing
operations read the state and produce console output only. -/
inductive Op (V R Λ : Type _) where
  | register (f : FieldInput V) (chain : Option (List (NV V → R))) (cb : Bool)
  | validate (groups : Option (List String)) (cb : Bool)
  | validateOne (id : String) (cb : Bool)
  | subscribe (id : String) (l : Option Λ) (cb : Bool)
  | unsubscribe (id : String) (l : Λ)
  | clearListeners (id : String) (cb : Bool)
  | updateGroups (id : String) (groups : Option (List String)) (cb : Bool)
  | addGroup (id g : String) (cb : Bool)
  | removeGroup (id g : String) (cb : Bool)
  | deregister (id : String) (cb : Bool)
  | getOneResult (id : String)
  | getResults (groups : Option (List String))
  | clearOneResult (id : String)
  | clearResults (groups : Option (List String))
  | printValidationInfo
  | printGroupInfo
  | printAllInfo

/-- The registry state after one public operation. -/
def execOp {V R Λ : Type _} [DecidableEq Λ] (v : Validator V R Λ) :
    Op V R Λ → Validator V R Λ
  | .register f chain cb => (register v f chain cb).1
  | .validate groups cb => (validate v groups cb).1
  | .validateOne id cb => (validateOne v id cb).1
  | .subscribe id l cb => (subscribe v id l cb).1
  | .unsubscribe id l => unsubscribeOp v id l
  | .clearListeners id cb => (clearListeners v id cb).1
  | .updateGroups id groups cb => (updateGroups v id groups cb).1
  | .addGroup id g cb => (addGroup v id g cb).1
  | .removeGroup id g cb => (removeGroup v id g cb).1
  | .deregister id cb => (deregister v id cb).1
  | .getOneResult _ => v
  | .getResults _ => v
  | .clearOneResult id => (clearOneResult v id).1
  | .clearResults groups => (clearResults v groups).1
  | .printValidationInfo => v
  | .printGroupInfo => v
  | .printAllInfo => v

/-- Whether the operation raises a TypeError (in the modelled well-typed
calls: only the subscribe destructuring of an absent record and the
updateGroups iteration of a nil group list do). -/
def threwOp {V R Λ : Type _} [DecidableEq Λ] (v : Validator V R Λ) :
    Op V R Λ → Bool
  | .subscribe id l cb =>
      match (subscribe v id l cb).2.1 with
      | .error _ => true
      | .ok _ => false
  | .updateGroups id groups cb =>
      match (updateGroups v id groups cb).2.1 with
      | .error _ => true
      | .ok _ => false
  | _ => false

/-- The registry state after a sequence of public operations. -/
def runOps {V R Λ : Type _} [DecidableEq Λ] (v : Validator V R Λ)
    (ops : List (Op V R Λ)) : Validator V R Λ :=
  ops.foldl execOp v

/-- Every id flagged true in some group map of `gs` has a record in `s`. -/
def flagsOk {V R Λ : Type _} (s : List (String × FieldRec V R Λ))
    (gs : List (String × List (String × Bool))) : Prop :=
  ∀ p ∈ gs, ∀ q ∈ p.2, q.2 = true → (mget s q.1).isSome

/-- The group-membership invariant of the specification: every id flagged true
in some group map is present in Field Storage. -/
def groupInv {V R Λ : Type _} (v : Validator V R Λ) : Prop :=
  flagsOk v.validationStorage v.groupStroage

instance {V R Λ : Type _} (v : Validator V R Λ) : Decidable (groupInv v) := by
  unfold groupInv flagsOk
  infer_instance

/-- Operations that keep the group-membership invariant: `addGroup` and
`updateGroups` only on a currently registered id, `deregister` only on an id
no group currently flags true. -/
def opSafe {V R Λ : Type _} (v : Validator V R Λ) : Op V R Λ → Bool
  | .addGroup id _ _ => (mget v.validationStorage id).isSome
  | .updateGroups id _ _ => (mget v.validationStorage id).isSome
  | .deregister id _ =>
      v.groupStroage.all fun p => p.2.all fun q => !(q.1 = id) || !q.2
  | _ => true

/-- A trace every step of which is safe in the state it runs in. -/
def safeTrace {V R Λ : Type _} [DecidableEq Λ] :
    Validator V R Λ → List (Op V R Λ) → Bool
  | _, [] => true
  | v, op :: ops => opSafe v op && safeTrace (execOp v op) ops

/-!
Heap-level model of the result arrays, for the clone performed by
`getOneResult`.  A value is a primitive or a reference to a heap-allocated
array; `_.clone` of lodash copies only the top level of an array: it allocates
a fresh array holding the very same element values. -/

/-- A JS value: a primitive or a reference to a mutable array on the heap. -/
inductive JVal where
  | prim (n : Nat)
  | ref (a : Nat)
deriving DecidableEq

/-- The heap: address `a` holds the array `h[a]`. -/
abbrev Heap := List (List JVal)

/-- The contents of the array at an address. -/
def heapGet (h : Heap) (a : Nat) : List JVal := (h[a]?).getD []

/-- In-place update of the array at an address (a caller mutating an array it
holds a reference to). -/
def heapSet (h : Heap) (a : Nat) (xs : List JVal) : Heap := h.set a xs

/-- Lodash `_.clone`: primitives are returned as-is, an array is copied
shallowly into a fresh allocation whose elements are the same values. -/
def lodashClone (h : Heap) (v : JVal) : Heap × JVal :=
  match v with
  | .prim n => (h, .prim n)
  | .ref a => (h ++ [heapGet h a], .ref h.length)

/-- Depth-one structural read of one element: a primitive reads as itself, a
reference as the primitives of the referenced array. -/
def readElem (h : Heap) : JVal → List Nat
  | .prim n => [n]
  | .ref a => (heapGet h a).map fun w => match w with | .prim n => n | .ref _ => 0

/-- Depth-two structural read of a value: the observable content of a cached
result array whose elements are primitives or references to arrays of
primitives. -/
def readTop (h : Heap) : JVal → List (List Nat)
  | .prim n => [[n]]
  | .ref a => (heapGet h a).map (readElem h)

/-- Model of `getOneResult` at the heap level: `_.clone(resultCache[id])`, where the
clone of an undefined entry is undefined. -/
def getOneResultClone (h : Heap) (cache : List (String × JVal)) (id : String) :
    Heap × Option JVal :=
  match mget cache id with
  | none => (h, none)
  | some v =>
      let out := lodashClone h v
      (out.1, some out.2)

/-!  Basic lemmas about the association-list operations. -/

theorem mget_mset {α : Type _} (m : List (String × α)) (k k' : String) (v : α) :
    mget (mset m k v) k' = if k = k' then some v else mget m k' := by
  induction m with
  | nil => simp [mget, mset]
  | cons p m ih =>
      by_cases hpk : p.1 = k
      · simp only [mset, if_pos hpk]
        by_cases hkk : k = k'
        · simp [mget, hkk]
        · simp only [mget, if_neg hkk]
          have : ¬ p.1 = k' := by rw [hpk]; exact hkk
          simp [mget, this, if_neg hkk]
      · simp only [mset, if_neg hpk]
        by_cases hpk' : p.1 = k'
        · have : ¬ k = k' := by
            intro h
            exact hpk (by rw [h, hpk'])
          simp [mget, hpk', this]
        · simp [mget, hpk', ih]

theorem mget_mset_self {α : Type _} (m : List (String × α)) (k : String) (v : α) :
    mget (mset m k v) k = some v := by
  simp [mget_mset]

theorem mget_mset_ne {α : Type _} (m : List (String × α)) (k k' : String) (v : α)
    (h : ¬ k = k') : mget (mset m k v) k' = mget m k' := by
  simp [mget_mset, h]

theorem mem_mset {α : Type _} {m : List (String × α)} {k : String} {v : α}
    {q : String × α} (h : q ∈ mset m k v) : q = (k, v) ∨ q ∈ m := by
  induction m with
  | nil => simpa [mset] using h
  | cons p m ih =>
      by_cases hpk : p.1 = k
      · simp only [mset, if_pos hpk, List.mem_cons] at h
        rcases h with h | h
        · exact Or.inl h
        · exact Or.inr (List.mem_cons_of_mem _ h)
      · simp only [mset, if_neg hpk, List.mem_cons] at h
        rcases h with h | h
        · exact Or.inr (h ▸ List.mem_cons_self _ _)
        · rcases ih h with h' | h'
          · exact Or.inl h'
          · exact Or.inr (List.mem_cons_of_mem _ h')

theorem mget_mem {α : Type _} {m : List (String × α)} {k : String} {v : α}
    (h : mget m k = some v) : (k, v) ∈ m := by
  induction m with
  | nil => simp [mget] at h
  | cons p m ih =>
      by_cases hpk : p.1 = k
      · simp only [mget, if_pos hpk, Option.some_inj] at h
        have : p = (k, v) := by
          cases p
          simp_all
        exact this ▸ List.mem_cons_self _ _
      · simp only [mget, if_neg hpk] at h
        exact List.mem_cons_of_mem _ (ih h)

/-- Recognizer of getter-invocation events. -/
def isGetterEvent {V R Λ : Type _} : Event V R Λ → Bool
  | .getterCall _ => true
  | _ => false

/-- Recognizer of the events the chain-running loop can emit. -/
def isChainPhase {V R Λ : Type _} : Event V R Λ → Bool
  | .getterCall _ => true
  | .chainCall _ _ _ => true
  | _ => false

/-- The listener of a notification event, if any. -/
def notifySel {V R Λ : Type _} : Event V R Λ → Option Λ
  | .notify l _ => some l
  | _ => none

/-- The listeners notified in a trace, in notification order. -/
def notifiedListeners {V R Λ : Type _} (evs : List (Event V R Λ)) : List Λ :=
  evs.filterMap notifySel

theorem mget_merase_ne {α : Type _} (m : List (String × α)) (k k' : String)
    (h : ¬ k' = k) : mget (merase m k) k' = mget m k' := by
  induction m with
  | nil => simp [merase]
  | cons p m ih =>
      by_cases hpk : p.1 = k
      · have hne : ¬ p.1 = k' := by rw [hpk]; intro hh; exact h hh.symm
        simp only [merase, if_pos hpk, mget, if_neg hne]
      · simp only [merase, if_neg hpk, mget]
        by_cases hpk' : p.1 = k'
        · simp only [if_pos hpk']
        · simp only [if_neg hpk', ih]

/-!  Lemmas about the chain-running loop of `validateOne`. -/

theorem runChain_length {V R Λ : Type _} (dn : String) (g : Nat → V)
    (cs : List (NV V → R)) (k : Nat) :
    (runChain (Λ := Λ) dn g cs k).1.length = cs.length := by
  induction cs generalizing k with
  | nil => simp [runChain]
  | cons f fs ih => simp [runChain, ih]

theorem runChain_getElem? {V R Λ : Type _} (dn : String) (g : Nat → V)
    (cs : List (NV V → R)) (k : Nat) (i : Nat) (h : i < cs.length) :
    (runChain (Λ := Λ) dn g cs k).1[i]? = some (cs[i] ⟨dn, g (k + i)⟩) := by
  induction cs generalizing k i with
  | nil => simp at h
  | cons f fs ih =>
      cases i with
      | zero => simp [runChain]
      | succ i =>
          have h' : i < fs.length := by simpa using h
          have hk : k + 1 + i = k + (i + 1) := by omega
          simp only [runChain, List.getElem?_cons_succ, List.getElem_cons_succ]
          rw [ih (k + 1) i h', hk]

theorem runChain_counter {V R Λ : Type _} (dn : String) (g : Nat → V)
    (cs : List (NV V → R)) (k : Nat) :
    (runChain (Λ := Λ) dn g cs k).2.1 = k + cs.length := by
  induction cs generalizing k with
  | nil => simp [runChain]
  | cons f fs ih => simp [runChain, ih]; omega

theorem runChain_getter_count {V R Λ : Type _} (dn : String) (g : Nat → V)
    (cs : List (NV V → R)) (k : Nat) :
    (runChain (Λ := Λ) dn g cs k).2.2.countP isGetterEvent = cs.length := by
  induction cs generalizing k with
  | nil => simp [runChain]
  | cons f fs ih =>
      simp [runChain, List.countP_cons, isGetterEvent, ih]

theorem runChain_phase {V R Λ : Type _} (dn : String) (g : Nat → V)
    (cs : List (NV V → R)) (k : Nat) :
    ∀ e ∈ (runChain (Λ := Λ) dn g cs k).2.2, isChainPhase e = true := by
  induction cs generalizing k with
  | nil => simp [runChain]
  | cons f fs ih =>
      intro e he
      simp only [runChain, List.mem_cons] at he
      rcases he with rfl | rfl | he
      · rfl
      · rfl
      · exact ih (k + 1) e he

/-- Claim C1: for every registered field whose validation chain has N
functions, `validateOne` invokes the getter exactly once per chain entry (N
invocations, advancing the getter state by N), calls each chain function with
an object of the display name and that entry's getter sample, and produces
exactly N results in chain order. -/
theorem validateOne_getter_per_chain_entry {V R Λ : Type _} (v : Validator V R Λ)
    (id : String) (cb : Bool) (fld : FieldRec V R Λ) (cs : List (NV V → R))
    (hreg : mget v.validationStorage id = some fld)
    (hchain : fld.validationChain = some cs) :
    ∃ rs : List R,
      (validateOne v id cb).2.1 = some rs
      ∧ rs.length = cs.length
      ∧ (∀ i, (h : i < cs.length) →
          rs[i]? = some (cs[i] ⟨getDisplayName fld.name id, fld.getter (fld.getterCount + i)⟩))
      ∧ (validateOne v id cb).2.2.countP isGetterEvent = cs.length
      ∧ (mget (validateOne v id cb).1.validationStorage id).map FieldRec.getterCount
          = some (fld.getterCount + cs.length) := by
  have hcs : fld.validationChain.getD [] = cs := by rw [hchain]; rfl
  refine ⟨(runChain (Λ := Λ) (getDisplayName fld.name id) fld.getter cs fld.getterCount).1,
    ?_, ?_, ?_, ?_, ?_⟩
  · simp [validateOne, hreg, hcs]
  · exact runChain_length _ _ _ _
  · intro i h
    exact runChain_getElem? _ _ _ _ i h
  · have htr : (validateOne v id cb).2.2
        = (runChain (Λ := Λ) (getDisplayName fld.name id) fld.getter cs fld.getterCount).2.2
          ++ [Event.cacheWrite id
                (runChain (Λ := Λ) (getDisplayName fld.name id) fld.getter cs fld.getterCount).1]
          ++ fld.listeners.map (fun l => Event.notify l
                (runChain (Λ := Λ) (getDisplayName fld.name id) fld.getter cs fld.getterCount).1)
          ++ if cb then [Event.callbackCall] else [] := by
      simp [validateOne, hreg, hcs]
    rw [htr]
    simp only [List.countP_append]
    rw [runChain_getter_count]
    have h2 : List.countP (isGetterEvent (V := V) (R := R) (Λ := Λ))
        (fld.listeners.map (fun l => Event.notify l
          (runChain (Λ := Λ) (getDisplayName fld.name id) fld.getter cs fld.getterCount).1)) = 0 := by
      rw [List.countP_eq_zero]
      intro e he
      rcases List.mem_map.mp he with ⟨l, _, rfl⟩
      simp [isGetterEvent]
    rw [h2]
    cases cb <;> simp [isGetterEvent, List.countP_cons]
  · have hst : (validateOne v id cb).1.validationStorage
        = mset v.validationStorage id
            { fld with getterCount :=
                (runChain (Λ := Λ) (getDisplayName fld.name id) fld.getter cs fld.getterCount).2.1 } := by
      simp [validateOne, hreg, hcs]
    rw [hst, mget_mset_self]
    simp [runChain_counter]

/-- Concrete witness data shared by several witnesses: a two-function chain,
a field registered in group g, and the same field with one subscribed
listener. -/
def wChain : List (NV Nat → Nat) := [fun nv => nv.value + 1, fun nv => nv.value * 2]

def wReg : Validator Nat Nat Nat :=
  (register (emptyValidator Nat Nat Nat) ⟨"a", fun k => k + 10, none, some ["g"]⟩
    (some wChain) false).1

def wFld : FieldRec Nat Nat Nat := ⟨none, some wChain, fun k => k + 10, 0, []⟩

def wSub : Validator Nat Nat Nat := (subscribe wReg "a" (some 5) false).1

def wSubFld : FieldRec Nat Nat Nat := ⟨none, some wChain, fun k => k + 10, 0, [5]⟩

theorem validateOne_getter_per_chain_entry_witness :
    ∃ rs : List Nat,
      (validateOne wReg "a" false).2.1 = some rs
      ∧ rs.length = wChain.length
      ∧ (∀ i, (h : i < wChain.length) →
          rs[i]? = some (wChain[i] ⟨getDisplayName wFld.name "a", wFld.getter (wFld.getterCount + i)⟩))
      ∧ (validateOne wReg "a" false).2.2.countP isGetterEvent = wChain.length
      ∧ (mget (validateOne wReg "a" false).1.validationStorage "a").map FieldRec.getterCount
          = some (wFld.getterCount + wChain.length) :=
  validateOne_getter_per_chain_entry wReg "a" false wFld wChain rfl rfl

/-- Claim C4: for every registered field, `validateOne` first overwrites the
result cache entry with the freshly collected sequence and only then notifies
every currently subscribed listener, in subscription order, each with the full
sequence; the same sequence is returned and is what the cache then holds. -/
theorem validateOne_cache_before_listeners {V R Λ : Type _} (v : Validator V R Λ)
    (id : String) (cb : Bool) (fld : FieldRec V R Λ)
    (hreg : mget v.validationStorage id = some fld) :
    ∃ (rs : List R) (chainEvs : List (Event V R Λ)) (v' : Validator V R Λ),
      validateOne v id cb =
        (v', some rs,
         chainEvs ++ [Event.cacheWrite id rs]
           ++ fld.listeners.map (fun l => Event.notify l rs)
           ++ if cb then [Event.callbackCall] else [])
      ∧ (∀ e ∈ chainEvs, isChainPhase e = true)
      ∧ mget v'.resultCache id = some (some rs) := by
  refine ⟨(runChain (Λ := Λ) (getDisplayName fld.name id) fld.getter (fld.validationChain.getD [])
      fld.getterCount).1,
    (runChain (Λ := Λ) (getDisplayName fld.name id) fld.getter (fld.validationChain.getD [])
      fld.getterCount).2.2,
    { validationStorage := mset v.validationStorage id
        { fld with getterCount :=
            (runChain (Λ := Λ) (getDisplayName fld.name id) fld.getter
              (fld.validationChain.getD []) fld.getterCount).2.1 },
      groupStroage := v.groupStroage,
      resultCache := mset v.resultCache id
        (some (runChain (Λ := Λ) (getDisplayName fld.name id) fld.getter
          (fld.validationChain.getD []) fld.getterCount).1) },
    ?_, ?_, ?_⟩
  · simp [validateOne, hreg]
  · exact runChain_phase _ _ _ _
  · exact mget_mset_self _ _ _

theorem validateOne_cache_before_listeners_witness :
    ∃ (rs : List Nat) (chainEvs : List (Event Nat Nat Nat)) (v' : Validator Nat Nat Nat),
      validateOne wSub "a" true =
        (v', some rs,
         chainEvs ++ [Event.cacheWrite "a" rs]
           ++ wSubFld.listeners.map (fun l => Event.notify l rs)
           ++ if true then [Event.callbackCall] else [])
      ∧ (∀ e ∈ chainEvs, isChainPhase e = true)
      ∧ mget v'.resultCache "a" = some (some rs) :=
  validateOne_cache_before_listeners wSub "a" true wSubFld rfl

/-!  Lemmas about the group-marking loop. -/

theorem addIdToGroups_cons (gs : List (String × List (String × Bool))) (id n : String)
    (ns : List String) :
    addIdToGroups gs id (n :: ns)
      = addIdToGroups (mset gs n (mset ((mget gs n).getD []) id true)) id ns := rfl

theorem addIdToGroups_flag_pres (id g : String) :
    ∀ (names : List String) (gs : List (String × List (String × Bool))),
      mget ((mget gs g).getD []) id = some true →
      mget ((mget (addIdToGroups gs id names) g).getD []) id = some true := by
  intro names
  induction names with
  | nil => intro gs h; exact h
  | cons n ns ih =>
      intro gs h
      rw [addIdToGroups_cons]
      apply ih
      by_cases hng : n = g
      · subst hng
        rw [mget_mset_self]
        simp [mget_mset_self]
      · rw [mget_mset_ne _ _ _ _ hng]
        exact h

theorem addIdToGroups_flag (id : String) :
    ∀ (names : List String) (gs : List (String × List (String × Bool))),
      ∀ g ∈ names, mget ((mget (addIdToGroups gs id names) g).getD []) id = some true := by
  intro names
  induction names with
  | nil => simp
  | cons n ns ih =>
      intro gs g hg
      rw [addIdToGroups_cons]
      rcases List.mem_cons.mp hg with rfl | hg
      · apply addIdToGroups_flag_pres
        rw [mget_mset_self]
        simp [mget_mset_self]
      · exact ih _ g hg

/-- Claim C2: registering an already present id leaves the whole registry
state unchanged (only a warning is emitted) and returns undefined, while a
first registration of a fresh id stores the field record, flags it true in
each listed group, and returns true. -/
theorem register_duplicate_noop_fresh_stores {V R Λ : Type _} (v : Validator V R Λ)
    (f : FieldInput V) (chain : Option (List (NV V → R))) (cb : Bool) :
    ((mget v.validationStorage f.id).isSome →
        register v f chain cb = (v, none, [Event.warn (alreadyRegisteredMsg f.id)]))
    ∧ (mget v.validationStorage f.id = none →
        (register v f chain cb).2.1 = some true
        ∧ mget (register v f chain cb).1.validationStorage f.id
            = some ⟨f.name, chain, f.getter, 0, []⟩
        ∧ ∀ g ∈ f.groups.getD [],
            mget ((mget (register v f chain cb).1.groupStroage g).getD []) f.id
              = some true) := by
  constructor
  · intro h
    rcases Option.isSome_iff_exists.mp h with ⟨fld, hf⟩
    simp [register, hf]
  · intro h
    refine ⟨?_, ?_, ?_⟩
    · simp [register, h]
    · simp [register, h, mget_mset_self]
    · intro g hg
      cases hgs : f.groups with
      | none => simp [hgs] at hg
      | some names =>
          have hgs' : (register v f chain cb).1.groupStroage
              = addIdToGroups v.groupStroage f.id names := by
            simp [register, h, hgs]
          rw [hgs']
          exact addIdToGroups_flag f.id names v.groupStroage g (by simpa [hgs] using hg)

theorem register_duplicate_noop_fresh_stores_witness :
    (register wReg ⟨"a", fun k => k, none, none⟩ none false
        = (wReg, none, [Event.warn (alreadyRegisteredMsg "a")]))
    ∧ (register (emptyValidator Nat Nat Nat)
          ⟨"a", fun k => k + 10, none, some ["g"]⟩ (some wChain) false).2.1 = some true
    ∧ mget ((mget (register (emptyValidator Nat Nat Nat)
          ⟨"a", fun k => k + 10, none, some ["g"]⟩ (some wChain) false).1.groupStroage
            "g").getD []) "a" = some true :=
  ⟨(register_duplicate_noop_fresh_stores wReg ⟨"a", fun k => k, none, none⟩ none false).1
      (by decide),
   ((register_duplicate_noop_fresh_stores (emptyValidator Nat Nat Nat)
      ⟨"a", fun k => k + 10, none, some ["g"]⟩ (some wChain) false).2 rfl).1,
   ((register_duplicate_noop_fresh_stores (emptyValidator Nat Nat Nat)
      ⟨"a", fun k => k + 10, none, some ["g"]⟩ (some wChain) false).2 rfl).2.2 "g"
      (by decide)⟩

/-!  Lemmas about group resolution. -/

theorem mem_addGroupIds (a : String) :
    ∀ (m : List (String × Bool)) (acc : List String),
      a ∈ addGroupIds acc m ↔ a ∈ acc ∨ (a, true) ∈ m := by
  intro m
  induction m with
  | nil => simp [addGroupIds]
  | cons q m ih =>
      intro acc
      have hstep : addGroupIds acc (q :: m)
          = addGroupIds (if q.2 && !(acc.contains q.1) then acc ++ [q.1] else acc) m := rfl
      rw [hstep, ih]
      have hone : (a ∈ (if q.2 && !(acc.contains q.1) then acc ++ [q.1] else acc))
          ↔ a ∈ acc ∨ (a, true) = q := by
        rcases q with ⟨x, b⟩
        cases b with
        | false => simp [Prod.ext_iff]
        | true =>
            cases hc : acc.contains x with
            | true =>
                have hx : x ∈ acc := List.elem_iff.mp hc
                simp [hc]
                rintro rfl
                exact hx
            | false => simp [hc]
      rw [hone, List.mem_cons]
      tauto

theorem mem_getIdsFromGroups_some {V R Λ : Type _} (v : Validator V R Λ)
    (gs : List String) (a : String) :
    a ∈ getIdsFromGroups v (some gs)
      ↔ ∃ g ∈ gs, (a, true) ∈ (mget v.groupStroage g).getD [] := by
  suffices h : ∀ (acc : List String),
      (a ∈ gs.foldl (fun acc g => addGroupIds acc ((mget v.groupStroage g).getD [])) acc
        ↔ a ∈ acc ∨ ∃ g ∈ gs, (a, true) ∈ (mget v.groupStroage g).getD []) by
    simpa [getIdsFromGroups] using h []
  induction gs with
  | nil => simp
  | cons g gs ih =>
      intro acc
      simp only [List.foldl_cons]
      rw [ih, mem_addGroupIds]
      constructor
      · rintro (⟨h | h⟩ | ⟨g', hg', h⟩)
        · exact Or.inl h
        · exact Or.inr ⟨g, List.mem_cons_self _ _, h⟩
        · exact Or.inr ⟨g', List.mem_cons_of_mem _ hg', h⟩
      · rintro (h | ⟨g', hg', h⟩)
        · exact Or.inl (Or.inl h)
        · rcases List.mem_cons.mp hg' with rfl | hg'
          · exact Or.inl (Or.inr h)
          · exact Or.inr ⟨g', hg', h⟩

theorem mget_eq_some_iff_mem {α : Type _} :
    ∀ {m : List (String × α)}, (m.map Prod.fst).Nodup →
      ∀ {k : String} {v : α}, (mget m k = some v ↔ (k, v) ∈ m) := by
  intro m
  induction m with
  | nil => intro _ k v; simp [mget]
  | cons p m ih =>
      intro hnd k v
      have hnd' : (m.map Prod.fst).Nodup := (List.nodup_cons.mp hnd).2
      have hnm : p.1 ∉ m.map Prod.fst := (List.nodup_cons.mp hnd).1
      by_cases hpk : p.1 = k
      · simp only [mget, if_pos hpk, List.mem_cons]
        constructor
        · intro h
          left
          cases p
          simp_all
        · rintro (h | h)
          · cases p
            simp_all
          · exfalso
            apply hnm
            rw [hpk]
            exact List.mem_map.mpr ⟨(k, v), h, rfl⟩
      · simp only [mget, if_neg hpk, List.mem_cons]
        rw [ih hnd']
        constructor
        · exact fun h => Or.inr h
        · rintro (h | h)
          · exfalso
            apply hpk
            cases p
            simp_all
          · exact h

/-- Claim C3: group resolution with a nil groups argument yields exactly the
ids currently registered, and with a list of names yields exactly the union
of the ids whose membership flag is true in the named groups, absent group
names contributing nothing. -/
theorem getIdsFromGroups_resolution {V R Λ : Type _} (v : Validator V R Λ)
    (hnd : ∀ p ∈ v.groupStroage, (p.2.map Prod.fst).Nodup) :
    getIdsFromGroups v none = v.validationStorage.map Prod.fst
    ∧ ∀ (gs : List String) (a : String),
        (a ∈ getIdsFromGroups v (some gs)
          ↔ ∃ g ∈ gs, mget ((mget v.groupStroage g).getD []) a = some true) := by
  constructor
  · rfl
  · intro gs a
    rw [mem_getIdsFromGroups_some]
    constructor
    · rintro ⟨g, hg, hmem⟩
      refine ⟨g, hg, ?_⟩
      cases hm : mget v.groupStroage g with
      | none => rw [hm] at hmem; simp at hmem
      | some m =>
          rw [hm] at hmem
          have : (m.map Prod.fst).Nodup := hnd (g, m) (mget_mem hm)
          exact (mget_eq_some_iff_mem this).mpr hmem
    · rintro ⟨g, hg, hget⟩
      refine ⟨g, hg, ?_⟩
      cases hm : mget v.groupStroage g with
      | none => rw [hm] at hget; simp [mget] at hget
      | some m =>
          rw [hm] at hget
          have : (m.map Prod.fst).Nodup := hnd (g, m) (mget_mem hm)
          exact (mget_eq_some_iff_mem this).mp hget

theorem getIdsFromGroups_resolution_witness :
    getIdsFromGroups wReg none = wReg.validationStorage.map Prod.fst
    ∧ ("a" ∈ getIdsFromGroups wReg (some ["g", "nope"])
        ↔ ∃ g ∈ ["g", "nope"], mget ((mget wReg.groupStroage g).getD []) "a" = some true) :=
  ⟨(getIdsFromGroups_resolution wReg (by decide)).1,
   (getIdsFromGroups_resolution wReg (by decide)).2 ["g", "nope"] "a"⟩

/-!  Claim C5: the clone performed by `getOneResult`. -/

/-- Concrete heap for the clone claims: address 0 holds the inner array
`[prim 0]`, address 1 the cached result array `[ref 0]`. -/
def hC : Heap := [[JVal.prim 0], [JVal.ref 0]]

/-- Concrete result cache holding the array at address 1 for id a. -/
def cacheC : List (String × JVal) := [("a", JVal.ref 1)]

/-- Claim C5 counterexample: `getOneResult` clones only the top level
(`_.clone` is shallow).  On the concrete cache it returns a fresh array
(address 2) whose single element is the same inner reference (address 0) as
the cached array's element; when the caller mutates that nested element
(writing through the returned value into address 0), the observable content
of the cached entry (address 1) changes, contradicting the claimed deep-copy
mutation-safety. -/
theorem getOneResult_deep_copy_cex :
    (getOneResultClone hC cacheC "a").2 = some (JVal.ref 2)
    ∧ heapGet (getOneResultClone hC cacheC "a").1 2 = [JVal.ref 0]
    ∧ heapGet (getOneResultClone hC cacheC "a").1 1 = [JVal.ref 0]
    ∧ readTop (heapSet (getOneResultClone hC cacheC "a").1 0 [JVal.prim 1]) (JVal.ref 1)
        ≠ readTop (getOneResultClone hC cacheC "a").1 (JVal.ref 1) := by
  decide

/-- Claim C5 amended: `getOneResult` returns undefined when the field was
never validated, and otherwise a shallow copy of the cached sequence: a fresh
array, not reference-identical to the cached one, whose elements are the very
same values as the cached array's elements (hence structurally equal at
return time, but with nested references shared, so mutations reaching a
nested element remain visible through the cached entry). -/
theorem getOneResult_shallow_clone (h : Heap) (cache : List (String × JVal))
    (id : String) :
    (mget cache id = none → getOneResultClone h cache id = (h, none))
    ∧ ∀ a, mget cache id = some (JVal.ref a) → a < h.length →
        getOneResultClone h cache id = (h ++ [heapGet h a], some (JVal.ref h.length))
        ∧ JVal.ref h.length ≠ JVal.ref a
        ∧ heapGet (h ++ [heapGet h a]) h.length = heapGet h a
        ∧ readTop (h ++ [heapGet h a]) (JVal.ref h.length)
            = readTop (h ++ [heapGet h a]) (JVal.ref a) := by
  constructor
  · intro hmiss
    simp [getOneResultClone, hmiss]
  · intro a hhit hlt
    have hget : heapGet (h ++ [heapGet h a]) h.length = heapGet h a := by
      simp [heapGet, List.getElem?_append]
    have hget' : heapGet (h ++ [heapGet h a]) a = heapGet h a := by
      simp [heapGet, List.getElem?_append, hlt]
    refine ⟨?_, ?_, hget, ?_⟩
    · simp [getOneResultClone, hhit, lodashClone]
    · intro heq
      have : h.length = a := by
        cases heq
        rfl
      omega
    · show readTop (h ++ [heapGet h a]) (JVal.ref h.length)
          = readTop (h ++ [heapGet h a]) (JVal.ref a)
      simp only [readTop, hget, hget']

theorem getOneResult_shallow_clone_witness :
    getOneResultClone hC cacheC "b" = (hC, none)
    ∧ (getOneResultClone hC cacheC "a" = (hC ++ [heapGet hC 1], some (JVal.ref hC.length))
       ∧ JVal.ref hC.length ≠ JVal.ref 1
       ∧ heapGet (hC ++ [heapGet hC 1]) hC.length = heapGet hC 1
       ∧ readTop (hC ++ [heapGet hC 1]) (JVal.ref hC.length)
           = readTop (hC ++ [heapGet hC 1]) (JVal.ref 1)) :=
  ⟨(getOneResult_shallow_clone hC cacheC "b").1 rfl,
   (getOneResult_shallow_clone hC cacheC "a").2 1 rfl (by decide)⟩

/-!  Claim C7: operating on an unregistered id. -/

/-- Claim C7 evidence: for an unregistered id with a non-nil listener,
`subscribe` warns and then destructures the absent field record, raising a
TypeError, instead of the advisory-diagnostic-plus-no-op behaviour the
specification requires of every operation. -/
theorem subscribe_unregistered_throws {V R Λ : Type _} (v : Validator V R Λ)
    (id : String) (l : Λ) (cb : Bool)
    (h : mget v.validationStorage id = none) :
    subscribe v id (some l) cb
      = (v, .error (.typeError "cannot destructure listeners of undefined"),
         [Event.warn (notRegisteredMsg id)]) := by
  simp [subscribe, h]

theorem subscribe_unregistered_throws_witness :
    subscribe (emptyValidator Nat Nat Nat) "a" (some 0) false
      = (emptyValidator Nat Nat Nat,
         .error (.typeError "cannot destructure listeners of undefined"),
         [Event.warn (notRegisteredMsg "a")]) :=
  subscribe_unregistered_throws (emptyValidator Nat Nat Nat) "a" 0 false rfl

/-!  Claim C8: TypeErrors and state mutation. -/

/-- Whether an Except value is an error. -/
def isErr {ε α : Type _} : Except ε α → Bool
  | .error _ => true
  | .ok _ => false

/-- Claim C8 counterexample: `updateGroups` with a nil groups list raises a
TypeError (iterating null), yet only after the clearing loop has set the
membership flag of the id to false in every existing group: on `wReg` the
flag of id a in group g is true before the call and false in the state the
throwing call leaves behind, so the failed call does not leave the registry
unchanged. -/
theorem updateGroups_nil_mutates_before_throw :
    isErr (updateGroups wReg "a" none false).2.1 = true
    ∧ wReg.groupStroage = [("g", [("a", true)])]
    ∧ (updateGroups wReg "a" none false).1.groupStroage = [("g", [("a", false)])] := by
  decide

/-- Claim C8 amended: over the modelled well-typed calls, an operation that
raises a TypeError leaves the registry state unchanged, with the single
exception of `updateGroups` with an absent groups list, which first sets the
membership flag of the id to false in every existing group and only then
raises.  (Shape checks on raw arguments are outside the typed model; note the
source's `subscribe` and `updateGroups` do not check the id at all.) -/
theorem typeError_state_unchanged_except_updateGroups {V R Λ : Type _}
    [DecidableEq Λ] (v : Validator V R Λ) (op : Op V R Λ)
    (h : threwOp v op = true) :
    execOp v op = v ∨ ∃ id cb, op = Op.updateGroups id none cb := by
  cases op with
  | subscribe id l cb =>
      left
      cases l with
      | none => simp [execOp, subscribe]
      | some l =>
          cases hm : mget v.validationStorage id with
          | none => simp [execOp, subscribe, hm]
          | some fld =>
              exfalso
              simp [threwOp, subscribe, hm, isErr] at h
  | updateGroups id groups cb =>
      cases groups with
      | none => exact Or.inr ⟨id, cb, rfl⟩
      | some names =>
          exfalso
          simp [threwOp, updateGroups] at h
  | register f chain cb => exact absurd h (by simp [threwOp])
  | validate groups cb => exact absurd h (by simp [threwOp])
  | validateOne id cb => exact absurd h (by simp [threwOp])
  | unsubscribe id l => exact absurd h (by simp [threwOp])
  | clearListeners id cb => exact absurd h (by simp [threwOp])
  | addGroup id g cb => exact absurd h (by simp [threwOp])
  | removeGroup id g cb => exact absurd h (by simp [threwOp])
  | deregister id cb => exact absurd h (by simp [threwOp])
  | getOneResult id => exact absurd h (by simp [threwOp])
  | getResults groups => exact absurd h (by simp [threwOp])
  | clearOneResult id => exact absurd h (by simp [threwOp])
  | clearResults groups => exact absurd h (by simp [threwOp])
  | printValidationInfo => exact absurd h (by simp [threwOp])
  | printGroupInfo => exact absurd h (by simp [threwOp])
  | printAllInfo => exact absurd h (by simp [threwOp])

theorem typeError_state_unchanged_except_updateGroups_witness :
    execOp (emptyValidator Nat Nat Nat) (Op.subscribe "a" (some 0) false)
        = emptyValidator Nat Nat Nat
      ∨ ∃ id cb, Op.subscribe "a" (some 0) false
          = Op.updateGroups (V := Nat) (R := Nat) (Λ := Nat) id none cb :=
  typeError_state_unchanged_except_updateGroups (emptyValidator Nat Nat Nat)
    (Op.subscribe "a" (some 0) false) (by decide)

/-!  Claims C9 and C10: the unsubscribe closure. -/

theorem jsSplice1_ofNat {α : Type _} (xs : List α) (n : Nat) (h : n ≤ xs.length) :
    jsSplice1 xs (n : Int) = xs.take n ++ xs.drop (n + 1) := by
  have hs : ((if (n : Int) < 0 then max ((xs.length : Int) + n) 0
      else min (n : Int) (xs.length : Int)).toNat) = n := by
    rw [if_neg (by omega)]
    omega
  simp only [jsSplice1, hs]

theorem jsIndexOf_eq_indexOf {Λ : Type _} [DecidableEq Λ] (l : Λ) :
    ∀ ls : List Λ, l ∈ ls → jsIndexOf l ls = (ls.indexOf l : Int) := by
  intro ls
  induction ls with
  | nil => simp
  | cons x xs ih =>
      intro h
      by_cases hx : x = l
      · subst hx
        simp [jsIndexOf, List.indexOf_cons_self]
      · have hmem : l ∈ xs := by
          rcases List.mem_cons.mp h with h' | h'
          · exact absurd h'.symm hx
          · exact h'
        have hr := ih hmem
        have hnn : ¬ jsIndexOf l xs < 0 := by
          rw [hr]
          omega
        have hidx : (x :: xs).indexOf l = xs.indexOf l + 1 := by
          simp [List.indexOf_cons, hx]
        simp only [jsIndexOf, if_neg hx, if_neg hnn, hr, hidx]
        rw [if_neg (by omega)]
        push_cast
        ring

theorem jsIndexOf_not_mem {Λ : Type _} [DecidableEq Λ] (l : Λ) :
    ∀ ls : List Λ, l ∉ ls → jsIndexOf l ls = -1 := by
  intro ls
  induction ls with
  | nil => intro _; rfl
  | cons x xs ih =>
      intro h
      have hx : ¬ x = l := fun hh => h (hh ▸ List.mem_cons_self _ _)
      have hxs : l ∉ xs := fun hh => h (List.mem_cons_of_mem _ hh)
      simp [jsIndexOf, hx, ih hxs]

theorem unsubList_of_mem {Λ : Type _} [DecidableEq Λ] (ls : List Λ) (l : Λ)
    (h : l ∈ ls) : unsubList ls l = ls.erase l := by
  have hlt : ls.indexOf l < ls.length := List.indexOf_lt_length.mpr h
  rw [unsubList, jsIndexOf_eq_indexOf l ls h, jsSplice1_ofNat ls (ls.indexOf l) (by omega)]
  rw [← List.eraseIdx_eq_take_drop_succ]
  exact List.eraseIdx_indexOf_eq_erase l ls

theorem unsubList_of_not_mem {Λ : Type _} [DecidableEq Λ] (ls : List Λ) (l : Λ)
    (h : l ∉ ls) (hne : ls ≠ []) : unsubList ls l = ls.dropLast := by
  have hlen : 1 ≤ ls.length := by
    cases ls with
    | nil => exact absurd rfl hne
    | cons x xs => simp
  have hs : ((if (-1 : Int) < 0 then max ((ls.length : Int) + -1) 0
      else min (-1 : Int) (ls.length : Int)).toNat) = ls.length - 1 := by
    rw [if_pos (by omega)]
    omega
  rw [unsubList, jsIndexOf_not_mem l ls h]
  simp only [jsSplice1, hs]
  have hdrop : ls.drop (ls.length - 1 + 1) = [] := by
    apply List.drop_eq_nil_of_le
    omega
  rw [hdrop, List.append_nil, List.dropLast_eq_take]

/-- The notification trace of `validateOne` on a registered field is exactly
the field's listener list, in order. -/
theorem validateOne_notified {V R Λ : Type _} (v : Validator V R Λ) (id : String)
    (cb : Bool) (fld : FieldRec V R Λ)
    (hreg : mget v.validationStorage id = some fld) :
    notifiedListeners (validateOne v id cb).2.2 = fld.listeners := by
  have htr : (validateOne v id cb).2.2
      = (runChain (Λ := Λ) (getDisplayName fld.name id) fld.getter
          (fld.validationChain.getD []) fld.getterCount).2.2
        ++ [Event.cacheWrite id
              (runChain (Λ := Λ) (getDisplayName fld.name id) fld.getter
                (fld.validationChain.getD []) fld.getterCount).1]
        ++ fld.listeners.map (fun l => Event.notify l
              (runChain (Λ := Λ) (getDisplayName fld.name id) fld.getter
                (fld.validationChain.getD []) fld.getterCount).1)
        ++ if cb then [Event.callbackCall] else [] := by
    simp [validateOne, hreg]
  rw [htr]
  simp only [notifiedListeners, List.filterMap_append]
  have h1 : List.filterMap (notifySel (V := V) (R := R) (Λ := Λ))
      (runChain (Λ := Λ) (getDisplayName fld.name id) fld.getter
        (fld.validationChain.getD []) fld.getterCount).2.2 = [] := by
    rw [List.filterMap_eq_nil_iff]
    intro e he
    have := runChain_phase (Λ := Λ) (getDisplayName fld.name id) fld.getter
      (fld.validationChain.getD []) fld.getterCount e he
    cases e <;> simp_all [isChainPhase, notifySel]
  have h2 : List.filterMap (notifySel (V := V) (R := R) (Λ := Λ))
      (fld.listeners.map (fun l => Event.notify l
        (runChain (Λ := Λ) (getDisplayName fld.name id) fld.getter
          (fld.validationChain.getD []) fld.getterCount).1)) = fld.listeners := by
    generalize (runChain (Λ := Λ) (getDisplayName fld.name id) fld.getter
      (fld.validationChain.getD []) fld.getterCount).1 = rs
    induction fld.listeners with
    | nil => rfl
    | cons a as ih => simpa [List.filterMap_cons, notifySel] using ih
  rw [h1, h2]
  cases cb <;> simp [notifySel]

/-- Claim C9: invoking the unsubscribe closure removes exactly one occurrence
of the captured listener (the first, by identity) from the field's listener
list, leaving every other entry in place; when the listener was subscribed
once, it is no longer present, the counts of all other listeners are
untouched, and a subsequent `validateOne` on the id notifies exactly the
remaining listeners, in order. -/
theorem unsubscribe_removes_exactly_one {V R Λ : Type _} [DecidableEq Λ]
    (v : Validator V R Λ) (id : String) (l : Λ) (fld : FieldRec V R Λ) (cb : Bool)
    (hreg : mget v.validationStorage id = some fld)
    (hmem : l ∈ fld.listeners) :
    mget (unsubscribeOp v id l).validationStorage id
        = some { fld with listeners := fld.listeners.erase l }
    ∧ (fld.listeners.count l = 1 →
        l ∉ fld.listeners.erase l
        ∧ (∀ x, x ≠ l → (fld.listeners.erase l).count x = fld.listeners.count x)
        ∧ notifiedListeners (validateOne (unsubscribeOp v id l) id cb).2.2
            = fld.listeners.erase l) := by
  have hstate : mget (unsubscribeOp v id l).validationStorage id
      = some { fld with listeners := fld.listeners.erase l } := by
    simp only [unsubscribeOp, hreg]
    rw [mget_mset_self, unsubList_of_mem _ _ hmem]
  refine ⟨hstate, fun hcount => ⟨?_, ?_, ?_⟩⟩
  · intro hmem'
    have := List.count_erase_self l fld.listeners
    rw [hcount] at this
    exact absurd (List.count_pos_iff.mpr hmem') (by omega)
  · intro x hx
    exact List.count_erase_of_ne hx _
  · exact validateOne_notified _ _ _ _ hstate

theorem unsubscribe_removes_exactly_one_witness :
    mget (unsubscribeOp wSub "a" 5).validationStorage "a"
        = some { wSubFld with listeners := wSubFld.listeners.erase 5 }
    ∧ (wSubFld.listeners.count 5 = 1 →
        5 ∉ wSubFld.listeners.erase 5
        ∧ (∀ x, x ≠ 5 → (wSubFld.listeners.erase 5).count x = wSubFld.listeners.count x)
        ∧ notifiedListeners (validateOne (unsubscribeOp wSub "a" 5) "a" false).2.2
            = wSubFld.listeners.erase 5) :=
  unsubscribe_removes_exactly_one wSub "a" 5 wSubFld false rfl (by decide)

/-- Claim C10: a second invocation of an unsubscribe closure whose listener is
no longer present, on a field whose listener list is non-empty, looks the
listener up at index -1 and splices there, deleting the final entry of the
list — silently removing a different, still-subscribed listener. -/
theorem unsubscribe_second_call_drops_last {V R Λ : Type _} [DecidableEq Λ]
    (v : Validator V R Λ) (id : String) (l : Λ) (fld : FieldRec V R Λ)
    (hreg : mget v.validationStorage id = some fld)
    (hnm : l ∉ fld.listeners) (hne : fld.listeners ≠ []) :
    jsIndexOf l fld.listeners = -1
    ∧ mget (unsubscribeOp v id l).validationStorage id
        = some { fld with listeners := fld.listeners.dropLast } := by
  refine ⟨jsIndexOf_not_mem l fld.listeners hnm, ?_⟩
  simp only [unsubscribeOp, hreg]
  rw [mget_mset_self, unsubList_of_not_mem _ _ hnm hne]

/-- The witness state for the double unsubscribe: two listeners subscribed,
then listener 5 unsubscribed once, leaving the list holding only listener 7. -/
def wSub2 : Validator Nat Nat Nat := (subscribe wSub "a" (some 7) false).1

def wOnce : Validator Nat Nat Nat := unsubscribeOp wSub2 "a" 5

def wOnceFld : FieldRec Nat Nat Nat := ⟨none, some wChain, fun k => k + 10, 0, [7]⟩

theorem unsubscribe_second_call_drops_last_witness :
    jsIndexOf 5 wOnceFld.listeners = -1
    ∧ mget (unsubscribeOp wOnce "a" 5).validationStorage "a"
        = some { wOnceFld with listeners := wOnceFld.listeners.dropLast } :=
  unsubscribe_second_call_drops_last wOnce "a" 5 wOnceFld rfl (by decide) (by decide)

/-!  Claim C6: the group-membership invariant over reachable states. -/

theorem flagsOk_mono {V R Λ : Type _} {s s' : List (String × FieldRec V R Λ)}
    {gs : List (String × List (String × Bool))}
    (hs : ∀ i, (mget s i).isSome → (mget s' i).isSome)
    (h : flagsOk s gs) : flagsOk s' gs :=
  fun p hp q hq hqt => hs q.1 (h p hp q hq hqt)

theorem isSome_mget_mset {α : Type _} (m : List (String × α)) (k i : String)
    (val : α) (h : (mget m i).isSome) : (mget (mset m k val) i).isSome := by
  rw [mget_mset]
  by_cases hk : k = i
  · simp [hk]
  · simpa [hk] using h

theorem flagsOk_group_set_true {V R Λ : Type _}
    {s : List (String × FieldRec V R Λ)} {gs : List (String × List (String × Bool))}
    {g id : String} (hid : (mget s id).isSome) (h : flagsOk s gs) :
    flagsOk s (mset gs g (mset ((mget gs g).getD []) id true)) := by
  intro p hp q hq hqt
  rcases mem_mset hp with hpe | hp'
  · subst hpe
    rcases mem_mset hq with hqe | hq'
    · subst hqe
      exact hid
    · cases hm : mget gs g with
      | none => rw [hm] at hq'; simp at hq'
      | some m =>
          rw [hm] at hq'
          exact h (g, m) (mget_mem hm) q (by simpa using hq') hqt
  · exact h p hp' q hq hqt

theorem flagsOk_addIdToGroups {V R Λ : Type _}
    {s : List (String × FieldRec V R Λ)} {id : String}
    (hid : (mget s id).isSome) :
    ∀ (names : List String) (gs : List (String × List (String × Bool))),
      flagsOk s gs → flagsOk s (addIdToGroups gs id names) := by
  intro names
  induction names with
  | nil => intro gs h; exact h
  | cons n ns ih =>
      intro gs h
      rw [addIdToGroups_cons]
      exact ih _ (flagsOk_group_set_true hid h)

theorem flagsOk_clear {V R Λ : Type _}
    {s : List (String × FieldRec V R Λ)} {gs : List (String × List (String × Bool))}
    {id : String} (h : flagsOk s gs) :
    flagsOk s (gs.map fun p => (p.1, mset p.2 id false)) := by
  intro p' hp' q hq hqt
  rcases List.mem_map.mp hp' with ⟨p, hp, rfl⟩
  rcases mem_mset hq with hqe | hq'
  · rw [hqe] at hqt
    simp at hqt
  · exact h p hp q hq' hqt

theorem flagsOk_group_set_false {V R Λ : Type _}
    {s : List (String × FieldRec V R Λ)} {gs : List (String × List (String × Bool))}
    {g id : String} {m : List (String × Bool)} (hm : mget gs g = some m)
    (h : flagsOk s gs) : flagsOk s (mset gs g (mset m id false)) := by
  intro p hp q hq hqt
  rcases mem_mset hp with hpe | hp'
  · subst hpe
    rcases mem_mset hq with hqe | hq'
    · rw [hqe] at hqt
      simp at hqt
    · exact h (g, m) (mget_mem hm) q hq' hqt
  · exact h p hp' q hq hqt

theorem flagsOk_merase {V R Λ : Type _}
    {s : List (String × FieldRec V R Λ)} {gs : List (String × List (String × Bool))}
    {id : String} (h : flagsOk s gs)
    (hsafe : ∀ p ∈ gs, ∀ q ∈ p.2, q.1 = id → q.2 = false) :
    flagsOk (merase s id) gs := by
  intro p hp q hq hqt
  have hne : ¬ q.1 = id := by
    intro he
    have := hsafe p hp q hq he
    rw [this] at hqt
    cases hqt
  rw [mget_merase_ne _ _ _ hne]
  exact h p hp q hq hqt

theorem validateOne_groupInv {V R Λ : Type _} (v : Validator V R Λ) (id : String)
    (cb : Bool) (h : groupInv v) : groupInv (validateOne v id cb).1 := by
  cases hm : mget v.validationStorage id with
  | none =>
      have heq : (validateOne v id cb).1 = v := by simp [validateOne, hm]
      rwa [heq]
  | some fld =>
      have heq : (validateOne v id cb).1
          = { validationStorage := mset v.validationStorage id
                { fld with getterCount :=
                    (runChain (Λ := Λ) (getDisplayName fld.name id) fld.getter
                      (fld.validationChain.getD []) fld.getterCount).2.1 },
              groupStroage := v.groupStroage,
              resultCache := mset v.resultCache id
                (some (runChain (Λ := Λ) (getDisplayName fld.name id) fld.getter
                  (fld.validationChain.getD []) fld.getterCount).1) } := by
        simp [validateOne, hm]
      rw [heq]
      exact flagsOk_mono (fun i hi => isSome_mget_mset _ _ _ _ hi) h

theorem foldl_validateStep_groupInv {V R Λ : Type _} :
    ∀ (ids : List String)
      (acc : Validator V R Λ × List (String × Option (List R)) × List (Event V R Λ)),
      groupInv acc.1 → groupInv ((ids.foldl validateStep acc)).1 := by
  intro ids
  induction ids with
  | nil => intro acc h; exact h
  | cons i is ih =>
      intro acc h
      exact ih _ (validateOne_groupInv acc.1 i false h)

theorem foldl_clearResultsStep_groupInv {V R Λ : Type _} :
    ∀ (ids : List String) (acc : Validator V R Λ × List (Event V R Λ)),
      groupInv acc.1 → groupInv ((ids.foldl clearResultsStep acc)).1 := by
  intro ids
  induction ids with
  | nil => intro acc h; exact h
  | cons i is ih =>
      intro acc h
      exact ih _ h

/-- Preservation of the invariant by one safe public operation. -/
theorem execOp_groupInv {V R Λ : Type _} [DecidableEq Λ] (v : Validator V R Λ)
    (op : Op V R Λ) (hinv : groupInv v) (hsafe : opSafe v op = true) :
    groupInv (execOp v op) := by
  cases op with
  | register f chain cb =>
      cases hm : mget v.validationStorage f.id with
      | some fld =>
          have heq : execOp v (Op.register f chain cb) = v := by
            simp [execOp, register, hm]
          rwa [heq]
      | none =>
          have hmono : ∀ i, (mget v.validationStorage i).isSome →
              (mget (mset v.validationStorage f.id
                ⟨f.name, chain, f.getter, 0, []⟩) i).isSome :=
            fun i hi => isSome_mget_mset _ _ _ _ hi
          have hbase : flagsOk
              (mset v.validationStorage f.id ⟨f.name, chain, f.getter, 0, []⟩)
              v.groupStroage := flagsOk_mono hmono hinv
          have hid : (mget (mset v.validationStorage f.id
              ⟨f.name, chain, f.getter, 0, []⟩) f.id).isSome := by
            rw [mget_mset_self]
            rfl
          cases hgs : f.groups with
          | none =>
              have heq : execOp v (Op.register f chain cb)
                  = { validationStorage := mset v.validationStorage f.id
                        ⟨f.name, chain, f.getter, 0, []⟩,
                      groupStroage := v.groupStroage,
                      resultCache := v.resultCache } := by
                simp [execOp, register, hm, hgs]
              rw [heq]
              exact hbase
          | some names =>
              have heq : execOp v (Op.register f chain cb)
                  = { validationStorage := mset v.validationStorage f.id
                        ⟨f.name, chain, f.getter, 0, []⟩,
                      groupStroage := addIdToGroups v.groupStroage f.id names,
                      resultCache := v.resultCache } := by
                simp [execOp, register, hm, hgs]
              rw [heq]
              exact flagsOk_addIdToGroups hid names _ hbase
  | validate groups cb =>
      have h := foldl_validateStep_groupInv (getIdsFromGroups v groups) (v, [], []) hinv
      simpa [execOp, validate] using h
  | validateOne id cb => exact validateOne_groupInv v id cb hinv
  | subscribe id l cb =>
      cases l with
      | none => exact hinv
      | some l =>
          cases hm : mget v.validationStorage id with
          | none =>
              have heq : execOp v (Op.subscribe id (some l) cb) = v := by
                simp [execOp, subscribe, hm]
              rwa [heq]
          | some fld =>
              have heq : execOp v (Op.subscribe id (some l) cb)
                  = { v with
                      validationStorage :=
                        mset v.validationStorage id { fld with listeners := fld.listeners ++ [l] } } := by
                simp [execOp, subscribe, hm]
              rw [heq]
              exact flagsOk_mono (fun i hi => isSome_mget_mset _ _ _ _ hi) hinv
  | unsubscribe id l =>
      cases hm : mget v.validationStorage id with
      | none =>
          have heq : execOp v (Op.unsubscribe id l) = v := by
            simp [execOp, unsubscribeOp, hm]
          rwa [heq]
      | some fld =>
          have heq : execOp v (Op.unsubscribe id l)
              = { v with
                  validationStorage :=
                    mset v.validationStorage id { fld with listeners := unsubList fld.listeners l } } := by
            simp [execOp, unsubscribeOp, hm]
          rw [heq]
          exact flagsOk_mono (fun i hi => isSome_mget_mset _ _ _ _ hi) hinv
  | clearListeners id cb =>
      cases hm : mget v.validationStorage id with
      | none =>
          have heq : execOp v (Op.clearListeners id cb) = v := by
            simp [execOp, clearListeners, hm]
          rwa [heq]
      | some fld =>
          have heq : execOp v (Op.clearListeners id cb)
              = { v with
                  validationStorage :=
                    mset v.validationStorage id { fld with listeners := [] } } := by
            simp [execOp, clearListeners, hm]
          rw [heq]
          exact flagsOk_mono (fun i hi => isSome_mget_mset _ _ _ _ hi) hinv
  | updateGroups id groups cb =>
      have hid : (mget v.validationStorage id).isSome := by
        simpa [opSafe] using hsafe
      have hclr : flagsOk v.validationStorage
          (v.groupStroage.map fun p => (p.1, mset p.2 id false)) := flagsOk_clear hinv
      cases groups with
      | none =>
          have heq : execOp v (Op.updateGroups id none cb)
              = { v with
                  groupStroage :=
                    v.groupStroage.map fun p => (p.1, mset p.2 id false) } := by
            simp [execOp, updateGroups]
          rw [heq]
          exact hclr
      | some names =>
          have heq : execOp v (Op.updateGroups id (some names) cb)
              = { v with
                  groupStroage :=
                    addIdToGroups (v.groupStroage.map fun p => (p.1, mset p.2 id false)) id names } := by
            simp [execOp, updateGroups]
          rw [heq]
          exact flagsOk_addIdToGroups hid names _ hclr
  | addGroup id g cb =>
      have hid : (mget v.validationStorage id).isSome := by
        simpa [opSafe] using hsafe
      have heq : execOp v (Op.addGroup id g cb)
          = { v with
              groupStroage :=
                mset v.groupStroage g (mset ((mget v.groupStroage g).getD []) id true) } := by
        simp [execOp, addGroup]
      rw [heq]
      exact flagsOk_group_set_true hid hinv
  | removeGroup id g cb =>
      cases hm : mget v.validationStorage id with
      | none =>
          have heq : execOp v (Op.removeGroup id g cb) = v := by
            simp [execOp, removeGroup, hm]
          rwa [heq]
      | some fld =>
          cases hg : mget v.groupStroage g with
          | none =>
              have heq : execOp v (Op.removeGroup id g cb) = v := by
                simp [execOp, removeGroup, hm, hg]
              rwa [heq]
          | some gi =>
              have heq : execOp v (Op.removeGroup id g cb)
                  = { v with
                      groupStroage := mset v.groupStroage g (mset gi id false) } := by
                simp [execOp, removeGroup, hm, hg]
              rw [heq]
              exact flagsOk_group_set_false hg hinv
  | deregister id cb =>
      have hs2 : ∀ (a : String) (b : List (String × Bool)), (a, b) ∈ v.groupStroage →
          ∀ (c : String), (c, true) ∈ b → ¬ c = id := by
        simpa [opSafe] using hsafe
      have hsafe' : ∀ p ∈ v.groupStroage, ∀ q ∈ p.2, q.1 = id → q.2 = false := by
        intro p hp q hq he
        rcases q with ⟨qa, qb⟩
        cases qb with
        | false => rfl
        | true =>
            rcases p with ⟨pa, pb⟩
            exact absurd he (hs2 pa pb hp qa hq)
      cases hm : mget v.validationStorage id with
      | none =>
          have heq : execOp v (Op.deregister id cb) = v := by
            simp [execOp, deregister, hm]
          rwa [heq]
      | some fld =>
          have heq : execOp v (Op.deregister id cb)
              = { validationStorage := merase v.validationStorage id,
                  groupStroage := v.groupStroage,
                  resultCache := mset v.resultCache id none } := by
            simp [execOp, deregister, hm]
          rw [heq]
          exact flagsOk_merase hinv hsafe'
  | getOneResult id => exact hinv
  | getResults groups => exact hinv
  | clearOneResult id => exact hinv
  | clearResults groups =>
      have h := foldl_clearResultsStep_groupInv (getIdsFromGroups v groups) (v, []) hinv
      simpa [execOp, clearResults] using h
  | printValidationInfo => exact hinv
  | printGroupInfo => exact hinv
  | printAllInfo => exact hinv

theorem safeTrace_groupInv {V R Λ : Type _} [DecidableEq Λ] :
    ∀ (ops : List (Op V R Λ)) (v : Validator V R Λ),
      groupInv v → safeTrace v ops = true → groupInv (runOps v ops) := by
  intro ops
  induction ops with
  | nil => intro v h _; exact h
  | cons op ops ih =>
      intro v h hs
      have hs' : opSafe v op = true ∧ safeTrace (execOp v op) ops = true := by
        simpa [safeTrace, Bool.and_eq_true] using hs
      exact ih _ (execOp_groupInv v op h hs'.1) hs'.2

/-- Claim C6 counterexample: the invariant fails in a state reachable from the
empty registry by public operations: register id a in group g, then
deregister it — the group map keeps the stale true flag for an id no longer
in Field Storage.  (Likewise a single `addGroup` on an unregistered id
produces a violating state.) -/
theorem groupInv_reachable_cex :
    ¬ groupInv (runOps (emptyValidator Nat Nat Nat)
        [Op.register ⟨"a", fun _ => 0, none, some ["g"]⟩ none false,
         Op.deregister "a" false]) := by
  decide

/-- Claim C6 amended: the invariant does hold in every state reachable from
the empty registry by traces in which `addGroup` and `updateGroups` are only
invoked on currently registered ids and `deregister` only on ids whose flag
is not true in any group map; unrestricted `deregister` (stale flags) or
`addGroup`/`updateGroups` on unregistered ids can violate it. -/
theorem groupInv_safe_reachable {V R Λ : Type _} [DecidableEq Λ]
    (ops : List (Op V R Λ)) (h : safeTrace (emptyValidator V R Λ) ops = true) :
    groupInv (runOps (emptyValidator V R Λ) ops) := by
  apply safeTrace_groupInv ops _ _ h
  intro p hp
  simp [emptyValidator] at hp

theorem groupInv_safe_reachable_witness :
    groupInv (runOps (emptyValidator Nat Nat Nat)
      [Op.register ⟨"a", fun _ => 0, none, some ["g"]⟩ none false,
       Op.removeGroup "a" "g" false,
       Op.deregister "a" false]) :=
  groupInv_safe_reachable _ (by decide)

end Operation

